import Mathlib

/-!
Shallow embedding of the Go library `slicetricks` (generic in-place slice
manipulation primitives).

A Go slice is modelled by `Slice T`: the full backing array (`store`), the
view offset into it (`off`) and the view length (`len`).  The capacity of a
Go slice is the number of backing-array slots from the offset to the end of
the array.  The Go zero value of the element type is modelled by `default`
from `Inhabited`.  Go's built-in `copy` has memmove semantics (overlapping
source and destination behave as if the source were read out first), so it is
modelled by writing a list of source values — captured from the pre-state —
into a destination region.  Operations that can panic in Go (indexing or
slicing out of range) return `Option`, with `none` for the panic.
-/

namespace Slicetricks

structure Slice (T : Type) where
  store : List T
  off : Nat
  len : Nat
  deriving DecidableEq, Repr

variable {T : Type}

/-- Go `cap(a)`: the number of backing-array slots from the view offset to the
end of the backing array. -/
def Slice.cap (a : Slice T) : Nat := a.store.length - a.off

/-- The live elements of the slice, i.e. the values of `(*a)[0:len]`. -/
def Slice.toList (a : Slice T) : List T := (a.store.drop a.off).take a.len

/-- Well-formedness of a Go slice header: the view fits inside the backing
array (Go guarantees `len(a) ≤ cap(a)`). -/
def Slice.WF (a : Slice T) : Prop := a.off + a.len ≤ a.store.length

instance (a : Slice T) : Decidable a.WF :=
  inferInstanceAs (Decidable (a.off + a.len ≤ a.store.length))

/-- Go `copy(dst, src)` where `dst` is the region of `store` starting at slot
`pos` with `dlen` slots, and `src` is the list of source values (captured from
the pre-state, matching Go's memmove semantics).  Exactly
`min dlen src.length` elements are copied. -/
def copyInto (store : List T) (pos dlen : Nat) (src : List T) : List T :=
  store.take pos ++ src.take (min dlen src.length) ++
    store.drop (pos + min dlen src.length)

/-- The Go loop `for k := pos; k < pos+cnt; k++ { store[k] = zero }`, in closed
form (every use below keeps the writes inside the backing array). -/
def zeroRange [Inhabited T] (store : List T) (pos cnt : Nat) : List T :=
  store.take pos ++ List.replicate (min cnt (store.length - pos)) (default : T) ++
    store.drop (pos + cnt)

/-- Go `Cut(a, start, stop)` (source: `Cut`, the parameter named `end` in Go):
`copy((*a)[start:], (*a)[end:])`, then the vacated tail slots are zeroed, then
the length shrinks by `stop - start`. -/
def Cut [Inhabited T] (a : Slice T) (start stop : Nat) : Slice T :=
  let st1 := copyInto a.store (a.off + start) (a.len - start) (a.toList.drop stop)
  let newLen := a.len - stop + start
  let st2 := zeroRange st1 (a.off + newLen) (a.len - newLen)
  { store := st2, off := a.off, len := newLen }

/-- Go `Delete(a, i)`: `copy((*a)[i:], (*a)[i+1:])`, then the final slot is
zeroed, then the length shrinks by one. -/
def Delete [Inhabited T] (a : Slice T) (i : Nat) : Slice T :=
  let st1 := copyInto a.store (a.off + i) (a.len - i) (a.toList.drop (i + 1))
  let st2 := st1.set (a.off + (a.len - 1)) (default : T)
  { store := st2, off := a.off, len := a.len - 1 }

/-- Go `append(a, vals...)`: if the new length fits in the capacity the values
are written in place after the current elements; otherwise a fresh backing
array is allocated and everything is copied.  (Go's grown capacity after a
reallocating append is implementation-defined; it is modelled as the exact new
length — no claim below depends on it.) -/
def goAppend (a : Slice T) (vals : List T) : Slice T :=
  if a.len + vals.length ≤ a.cap then
    { store := copyInto a.store (a.off + a.len) vals.length vals,
      off := a.off, len := a.len + vals.length }
  else
    { store := a.toList ++ vals, off := 0, len := a.len + vals.length }

/-- Go `Expand(a, i, n)`:
`*a = append((*a)[:i], append(make([]T, n), (*a)[i:]...)...)`.
The inner append always materialises a fresh array holding `n` zero values
followed by the values of the tail `(*a)[i:]`; the outer append is `goAppend`
on the slice `(*a)[:i]` (same backing array and offset, length `i`). -/
def Expand [Inhabited T] (a : Slice T) (i n : Nat) : Slice T :=
  goAppend { store := a.store, off := a.off, len := i }
    (List.replicate n (default : T) ++ a.toList.drop i)

/-- Go `Push(a, elem)`: `*a = append(*a, elem)`. -/
def Push (a : Slice T) (elem : T) : Slice T := goAppend a [elem]

/-- Go `PushFront(a, elem)`: `*a = append([]T{elem}, (*a)...)` — an append to
the fresh one-element literal slice (length 1, capacity 1). -/
def PushFront (a : Slice T) (elem : T) : Slice T :=
  goAppend { store := [elem], off := 0, len := 1 } a.toList

/-- Go `Pop(a)`: reads `(*a)[len-1]` (a panic, modelled `none`, on an empty
slice) and reslices to `(*a)[:len-1]`.  The backing array is untouched. -/
def Pop [Inhabited T] (a : Slice T) : Option (T × Slice T) :=
  if a.len = 0 then none
  else some (a.store.getD (a.off + (a.len - 1)) default,
             { store := a.store, off := a.off, len := a.len - 1 })

/-- Go `PopFront(a)`: reads `(*a)[0]` (a panic, modelled `none`, on an empty
slice) and reslices to `(*a)[1:]`, advancing the offset.  The backing array is
untouched. -/
def PopFront [Inhabited T] (a : Slice T) : Option (T × Slice T) :=
  if a.len = 0 then none
  else some (a.store.getD a.off default,
             { store := a.store, off := a.off + 1, len := a.len - 1 })

/-- Go `InsertMany(a, i, elems...)` with `k = len(elems)`.
In-place path (taken when `len + k ≤ cap`):
`*a = (*a)[:len+k]; copy((*a)[i+k:], (*a)[i:i+k+1]); copy((*a)[i:], elems)`;
the slice expression `(*a)[i:i+k+1]` panics (`none`) when `i+k+1 > cap`, and
`(*a)[i:]` panics when `i > len+k`.
Reallocation path: a fresh zeroed array of exactly the new length receives the
three segments `(*a)[:i]`, `elems`, `(*a)[i:]` (the slicings panic when
`i > len`). -/
def InsertMany [Inhabited T] (a : Slice T) (i : Nat) (elems : List T) :
    Option (Slice T) :=
  let k := elems.length
  if a.len + k ≤ a.cap then
    if i + k + 1 ≤ a.cap ∧ i ≤ a.len + k then
      let len1 := a.len + k
      let src := (a.store.drop (a.off + i)).take (k + 1)
      let st1 := copyInto a.store (a.off + (i + k)) (len1 - (i + k)) src
      let st2 := copyInto st1 (a.off + i) (len1 - i) elems
      some { store := st2, off := a.off, len := len1 }
    else none
  else
    if i ≤ a.len then
      let s2 := List.replicate (a.len + k) (default : T)
      let s2 := copyInto s2 0 (a.len + k) (a.toList.take i)
      let s2 := copyInto s2 i (a.len + k - i) elems
      let s2 := copyInto s2 (i + k) (a.len + k - (i + k)) (a.toList.drop i)
      some { store := s2, off := 0, len := a.len + k }
    else none

/-- The compaction loop shared by `Filter` and `FilterNoGC`:
`n := 0; for _, x := range *a { if keep(x) { (*a)[n] = x; n++ } }`.
`xs` is the list of values ranged over; the write index `n` never overtakes
the read position, so the iteration always reads the original values. -/
def filterLoop (keep : T → Bool) (off : Nat) :
    List T → List T → Nat → List T × Nat
  | [], store, n => (store, n)
  | x :: xs, store, n =>
    if keep x then filterLoop keep off xs (store.set (off + n) x) (n + 1)
    else filterLoop keep off xs store n

/-- Go `Filter` (the baseline, clearing variant): compaction pass, then the
vacated slots `[n, len)` are zeroed, then the length shrinks to `n`. -/
def Filter [Inhabited T] (a : Slice T) (keep : T → Bool) : Slice T :=
  let r := filterLoop keep a.off a.toList a.store 0
  { store := zeroRange r.1 (a.off + r.2) (a.len - r.2), off := a.off, len := r.2 }

/-- Go `FilterNoGC` (the non-clearing variant; the repository's other copy of
`Filter` has this exact body): compaction pass only, no clearing. -/
def FilterNoGC (a : Slice T) (keep : T → Bool) : Slice T :=
  let r := filterLoop keep a.off a.toList a.store 0
  { store := r.1, off := a.off, len := r.2 }

/-- The append-style compaction loop of `FilterZeroAlloc` and
`FilterZeroAllocNoGC`:
`b := (*a)[:0]; for _, x := range *a { if keep(x) { b = append(b, x) } }`. -/
def filterAppendLoop (keep : T → Bool) : List T → Slice T → Slice T
  | [], b => b
  | x :: xs, b =>
    if keep x then filterAppendLoop keep xs (goAppend b [x])
    else filterAppendLoop keep xs b

/-- Go `FilterZeroAllocNoGC`: append-style compaction into `b := (*a)[:0]`,
then `*a = b`.  (The appends always stay inside the original backing array —
proved below — which is the function's zero-allocation point.) -/
def FilterZeroAllocNoGC (a : Slice T) (keep : T → Bool) : Slice T :=
  filterAppendLoop keep a.toList { store := a.store, off := a.off, len := 0 }

/-- Go `FilterZeroAlloc`: append-style compaction into `b := (*a)[:0]`, then
`for i := len(b); i < len(*a); i++ { (*a)[i] = zero }` (writes through `*a`,
which shares its backing array with `b`), then `*a = b`. -/
def FilterZeroAlloc [Inhabited T] (a : Slice T) (keep : T → Bool) : Slice T :=
  let b := filterAppendLoop keep a.toList { store := a.store, off := a.off, len := 0 }
  { store := zeroRange b.store (a.off + b.len) (a.len - b.len),
    off := b.off, len := b.len }

/-- The loop of `Batches`: while `batchSize < len(a)`, emit the view
`a[0:batchSize:batchSize]` and advance `a = a[batchSize:]`; afterwards emit
the remainder.  `fuel` bounds the iteration count (the Go loop diverges when
`batchSize = 0` and the slice is longer; every use below supplies
`fuel = len(a)`, which is enough whenever `batchSize ≥ 1`). -/
def batchesLoop (batchSize : Nat) : Nat → List T → List (List T) → List (List T)
  | 0, a, batches => batches ++ [a]
  | fuel + 1, a, batches =>
    if batchSize < a.length then
      batchesLoop batchSize fuel (a.drop batchSize) (batches ++ [a.take batchSize])
    else batches ++ [a]

/-- Go `Batches(a, batchSize)`, at the level of element values (each batch is
a view into the caller's array; only its values are modelled). -/
def Batches (a : List T) (batchSize : Nat) : List (List T) :=
  if a.length = 0 then [] else batchesLoop batchSize a.length a []

/-- The loop of `SlidingWindow`:
`for i, j := 0, size; j <= len(a); i, j = i+1, j+1 { r = append(r, a[i:j]) }`.
`fuel` bounds the iteration count; every use below supplies `len(a) + 1`,
which is enough for all inputs. -/
def slidingLoop (a : List T) : Nat → Nat → Nat → List (List T) → List (List T)
  | 0, _, _, r => r
  | fuel + 1, i, j, r =>
    if j ≤ a.length then
      slidingLoop a fuel (i + 1) (j + 1) (r ++ [(a.drop i).take (j - i)])
    else r

/-- Go `SlidingWindow(a, size)`, at the level of element values. -/
def SlidingWindow (a : List T) (size : Nat) : List (List T) :=
  if a.length = 0 then []
  else if a.length ≤ size then [a]
  else slidingLoop a (a.length + 1) 0 size []

/-- Stable insertion used to model `sort.SliceStable`: the element `x`
(arriving later in the input) is placed after every accumulated element it is
not strictly less than. -/
def insertStable (less : T → T → Bool) (x : T) : List T → List T
  | [] => [x]
  | y :: ys => if less x y then x :: y :: ys else y :: insertStable less x ys

/-- Models Go's `sort.SliceStable` on the slice contents: a stable sort by the
comparator (Go's index-based `less(i, j)` is modelled as the corresponding
comparator on element values). -/
def stableSort (less : T → T → Bool) (l : List T) : List T :=
  l.foldl (fun acc x => insertStable less x acc) []

/-- The deduplication loop of `SortAndDeduplicate`:
`j := 0; for i := 1; i < len; i++ { if (*a)[j] == (*a)[i] { continue }; j++;
(*a)[j] = (*a)[i] }`.  `fuel` bounds the iteration count; every use below
supplies `len`, which is enough for all inputs. -/
def dedupLoop [BEq T] [Inhabited T] (off len : Nat) :
    Nat → List T → Nat → Nat → List T × Nat
  | 0, store, j, _ => (store, j)
  | fuel + 1, store, j, i =>
    if i < len then
      if store.getD (off + j) default == store.getD (off + i) default then
        dedupLoop off len fuel store j (i + 1)
      else
        dedupLoop off len fuel
          (store.set (off + (j + 1)) (store.getD (off + i) default)) (j + 1) (i + 1)
    else (store, j)

/-- Go `SortAndDeduplicate(a, less)`: `sort.SliceStable(*a, less)` in place,
then the deduplication loop, then `*a = (*a)[:j+1]` — a reslice that panics
(`none`) when `j + 1 > cap`.  On an empty input the loop body never runs and
`j + 1 = 1`. -/
def SortAndDeduplicate [BEq T] [Inhabited T] (a : Slice T) (less : T → T → Bool) :
    Option (Slice T) :=
  let st := copyInto a.store a.off a.len (stableSort less a.toList)
  let r := dedupLoop a.off a.len a.len st 0 1
  if r.2 + 1 ≤ a.cap then
    some { store := r.1, off := a.off, len := r.2 + 1 }
  else none

/-! ### Basic lemmas about the slice model -/

theorem Slice.toList_length (a : Slice T) (h : a.WF) : a.toList.length = a.len := by
  simp only [Slice.toList, Slice.WF] at *
  simp only [List.length_take, List.length_drop]
  omega

theorem Slice.toList_getD [Inhabited T] (a : Slice T) (h : a.WF) {j : Nat}
    (hj : j < a.len) : a.toList.getD j default = a.store.getD (a.off + j) default := by
  have h1 : j < a.toList.length := by rw [a.toList_length h]; exact hj
  have h2 : a.off + j < a.store.length := by
    simp only [Slice.WF] at h; omega
  rw [List.getD_eq_getElem _ _ h1, List.getD_eq_getElem _ _ h2]
  simp [Slice.toList]

theorem copyInto_length (store src : List T) (pos dlen : Nat)
    (h : pos + min dlen src.length ≤ store.length) :
    (copyInto store pos dlen src).length = store.length := by
  simp only [copyInto, List.length_append, List.length_take, List.length_drop]
  omega

theorem zeroRange_length [Inhabited T] (store : List T) (pos cnt : Nat)
    (h : pos + cnt ≤ store.length) :
    (zeroRange store pos cnt).length = store.length := by
  simp only [zeroRange, List.length_append, List.length_take, List.length_drop,
    List.length_replicate]
  omega

theorem zeroRange_take [Inhabited T] (store : List T) (pos cnt : Nat)
    (h : pos ≤ store.length) :
    (zeroRange store pos cnt).take pos = store.take pos := by
  have hA : (store.take pos).length = pos := by
    simp only [List.length_take]; omega
  rw [zeroRange, List.take_append_of_le_length (by simp [hA]),
    List.take_append_of_le_length (by omega), List.take_take, Nat.min_self]

theorem zeroRange_getD [Inhabited T] (store : List T) (pos cnt p : Nat)
    (h1 : pos ≤ p) (h2 : p < pos + cnt) (h3 : pos + cnt ≤ store.length) :
    (zeroRange store pos cnt).getD p default = default := by
  have hA : (store.take pos).length = pos := by
    simp only [List.length_take]; omega
  have hB : (List.replicate (min cnt (store.length - pos)) (default : T)).length = cnt := by
    simp only [List.length_replicate]; omega
  rw [zeroRange,
    List.getD_append _ _ _ _ (by rw [List.length_append, hA, hB]; omega),
    List.getD_append_right _ _ _ _ (by rw [hA]; omega), hA,
    List.getD_eq_getElem _ _ (by rw [hB]; omega)]
  exact List.getElem_replicate ..

theorem take_set_self (l : List T) (n : Nat) (x : T) :
    (l.set n x).take n = l.take n := by
  apply List.ext_getElem?
  intro m
  rw [List.getElem?_take, List.getElem?_take]
  split
  · next h => rw [List.getElem?_set_ne (by omega)]
  · rfl

theorem drop_take_eq_of_take_eq {l₁ l₂ : List T} {m off n : Nat}
    (h : l₁.take m = l₂.take m) (hmn : off + n ≤ m) :
    (l₁.drop off).take n = (l₂.drop off).take n := by
  have e1 : l₁.take (off + n) = l₂.take (off + n) := by
    have t1 : (l₁.take m).take (off + n) = l₁.take (off + n) := by
      rw [List.take_take, Nat.min_eq_left hmn]
    have t2 : (l₂.take m).take (off + n) = l₂.take (off + n) := by
      rw [List.take_take, Nat.min_eq_left hmn]
    rw [← t1, ← t2, h]
  rw [List.take_drop, List.take_drop, e1]

theorem toList_mk_shrink (a : Slice T) (m : Nat) (h : m ≤ a.len) :
    (Slice.mk a.store a.off m).toList = a.toList.take m := by
  simp only [Slice.toList, List.take_take, Nat.min_eq_left h]

theorem toList_mk_advance (a : Slice T) :
    (Slice.mk a.store (a.off + 1) (a.len - 1)).toList = a.toList.drop 1 := by
  simp only [Slice.toList, List.drop_take, List.drop_drop]

/-! ### Lemmas about `goAppend` -/

theorem goAppend_len (a : Slice T) (vals : List T) :
    (goAppend a vals).len = a.len + vals.length := by
  unfold goAppend
  split <;> rfl

theorem goAppend_WF (a : Slice T) (vals : List T) (h : a.WF) : (goAppend a vals).WF := by
  have hoff : a.off + a.len ≤ a.store.length := h
  unfold goAppend
  split
  · next hc =>
    simp only [Slice.cap] at hc
    show a.off + (a.len + vals.length) ≤ _
    rw [copyInto_length _ _ _ _ (by simp only [Nat.min_self]; omega)]
    omega
  · next hc =>
    show 0 + (a.len + vals.length) ≤ _
    simp only [List.length_append, a.toList_length h]
    omega

theorem goAppend_toList (a : Slice T) (vals : List T) (h : a.WF) :
    (goAppend a vals).toList = a.toList ++ vals := by
  have hoff : a.off + a.len ≤ a.store.length := h
  unfold goAppend
  split
  · next hc =>
    simp only [Slice.cap] at hc
    have hin : a.off + a.len + vals.length ≤ a.store.length := by omega
    show ((copyInto a.store (a.off + a.len) vals.length vals).drop a.off).take
        (a.len + vals.length) = _
    rw [copyInto, Nat.min_self, List.take_length]
    have hA : (a.store.take (a.off + a.len)).length = a.off + a.len := by
      simp only [List.length_take]; omega
    rw [List.drop_append_of_le_length (by simp only [List.length_append, hA]; omega),
      List.drop_append_of_le_length (by omega)]
    have hlen : ((a.store.take (a.off + a.len)).drop a.off ++ vals).length
        = a.len + vals.length := by
      simp only [List.length_append, List.length_drop, hA]; omega
    rw [List.take_append_of_le_length (by omega),
      List.take_of_length_le (by omega)]
    rw [List.drop_take, Nat.add_sub_cancel_left]
    rfl
  · next hc =>
    show ((a.toList ++ vals).drop 0).take (a.len + vals.length) = _
    rw [List.drop_zero, List.take_of_length_le
      (by simp only [List.length_append, a.toList_length h]; omega)]

/-! ### The shifting copy shared by `Cut` and `Delete` -/

theorem shift_take (a : Slice T) (h : a.WF) (start stop : Nat)
    (h1 : start ≤ stop) (h2 : stop ≤ a.len) :
    ((copyInto a.store (a.off + start) (a.len - start) (a.toList.drop stop)).drop
        a.off).take (a.len - stop + start)
      = a.toList.take start ++ a.toList.drop stop := by
  have hoff : a.off + a.len ≤ a.store.length := h
  have hsrc : (a.toList.drop stop).length = a.len - stop := by
    simp only [List.length_drop, a.toList_length h]
  have hmin : min (a.len - start) (a.toList.drop stop).length = a.len - stop := by
    rw [hsrc]; omega
  have hBtake : (a.toList.drop stop).take (a.len - stop) = a.toList.drop stop :=
    List.take_of_length_le (by omega)
  rw [copyInto, hmin, hBtake]
  have hA : (a.store.take (a.off + start)).length = a.off + start := by
    simp only [List.length_take]; omega
  rw [List.drop_append_of_le_length
      (by simp only [List.length_append, hA, hsrc]; omega),
    List.drop_append_of_le_length (by omega)]
  have hAd : ((a.store.take (a.off + start)).drop a.off).length = start := by
    simp only [List.length_drop, hA]; omega
  rw [List.take_append_of_le_length
      (by simp only [List.length_append, hAd, hsrc]; omega)]
  have hfull : ((a.store.take (a.off + start)).drop a.off ++
      a.toList.drop stop).take (a.len - stop + start)
      = (a.store.take (a.off + start)).drop a.off ++ a.toList.drop stop :=
    List.take_of_length_le (by simp only [List.length_append, hAd, hsrc]; omega)
  rw [hfull, List.drop_take, Nat.add_sub_cancel_left]
  have : (a.store.drop a.off).take start = a.toList.take start := by
    simp only [Slice.toList, List.take_take, Nat.min_eq_left (by omega : start ≤ a.len)]
  rw [this]

theorem getD_set_self (l : List T) (n : Nat) (x d : T) (h : n < l.length) :
    (l.set n x).getD n d = x := by
  rw [List.getD_eq_getElem _ _ (by simpa using h)]
  exact List.getElem_set_self (by simpa using h)

/-! ### Claim theorems: Cut and Delete (C6), trailing clears for them (part of C4) -/

/-- C6: for a well-formed slice, `Cut(a, start, end)` leaves the sequence equal
to the concatenation of `a[:start]` and `a[end:]`, with the length decreased by
exactly `end - start`; and `Delete(a, i)` leaves it equal to the concatenation
of `a[:i]` and `a[i+1:]`, with the length decreased by exactly 1. -/
theorem cut_delete_spec [Inhabited T] (a : Slice T) (start stop i : Nat)
    (hwf : a.WF) (h1 : start ≤ stop) (h2 : stop ≤ a.len) (hi : i < a.len) :
    ((Cut a start stop).toList = a.toList.take start ++ a.toList.drop stop
      ∧ (Cut a start stop).len = a.len - (stop - start))
    ∧ ((Delete a i).toList = a.toList.take i ++ a.toList.drop (i + 1)
      ∧ (Delete a i).len = a.len - 1) := by
  have hoff : a.off + a.len ≤ a.store.length := hwf
  refine ⟨⟨?_, ?_⟩, ⟨?_, ?_⟩⟩
  · have hsrc : (a.toList.drop stop).length = a.len - stop := by
      simp only [List.length_drop, a.toList_length hwf]
    have hst1 : (copyInto a.store (a.off + start) (a.len - start)
        (a.toList.drop stop)).length = a.store.length := by
      apply copyInto_length
      rw [hsrc]
      omega
    show ((zeroRange (copyInto a.store (a.off + start) (a.len - start)
          (a.toList.drop stop)) (a.off + (a.len - stop + start))
          (a.len - (a.len - stop + start))).drop a.off).take (a.len - stop + start)
        = a.toList.take start ++ a.toList.drop stop
    rw [drop_take_eq_of_take_eq
      (zeroRange_take _ _ _ (by rw [hst1]; omega)) (Nat.le_refl _)]
    exact shift_take a hwf start stop h1 h2
  · show a.len - stop + start = a.len - (stop - start)
    omega
  · show (((copyInto a.store (a.off + i) (a.len - i) (a.toList.drop (i + 1))).set
        (a.off + (a.len - 1)) default).drop a.off).take (a.len - 1)
        = a.toList.take i ++ a.toList.drop (i + 1)
    rw [drop_take_eq_of_take_eq
      (take_set_self _ (a.off + (a.len - 1)) default) (Nat.le_refl _)]
    have heq : a.len - 1 = a.len - (i + 1) + i := by omega
    rw [heq]
    exact shift_take a hwf i (i + 1) (by omega) (by omega)
  · rfl

/-! ### Claim theorems: Expand (C3), Push/Pop round trips (C9), Pop frame (C10) -/

/-- C3 (amended): for a well-formed slice and `i ≤ len`, `Expand(a, i, n)`
inserts `n` zero-valued elements at position `i` — immediately before the
element previously at index `i` (the positions `i .. i+n-1` of the result hold
zero values, the elements before position `i` and the original elements from
index `i` on are unchanged and in their original relative order) — the length
increases by `n`, and `n = 0` is a no-op. -/
theorem expand_spec [Inhabited T] (a : Slice T) (i n : Nat)
    (hwf : a.WF) (hi : i ≤ a.len) :
    (Expand a i n).toList
      = a.toList.take i ++ List.replicate n (default : T) ++ a.toList.drop i
    ∧ (Expand a i n).len = a.len + n
    ∧ (Expand a i 0).toList = a.toList := by
  have hoff : a.off + a.len ≤ a.store.length := hwf
  have hbwf : (Slice.mk a.store a.off i).WF := by
    show a.off + i ≤ a.store.length
    omega
  have key : ∀ m, (Expand a i m).toList
      = a.toList.take i ++ List.replicate m (default : T) ++ a.toList.drop i := by
    intro m
    rw [Expand, goAppend_toList _ _ hbwf, toList_mk_shrink a i hi, List.append_assoc]
  refine ⟨key n, ?_, ?_⟩
  · rw [Expand, goAppend_len]
    show i + (List.replicate n (default : T) ++ a.toList.drop i).length = a.len + n
    simp only [List.length_append, List.length_replicate, List.length_drop,
      a.toList_length hwf]
    omega
  · rw [key 0]
    simp only [List.replicate_zero, List.append_nil]
    exact List.take_append_drop i a.toList

/-- C9: pushing `x` and then popping returns `x` and leaves the sequence
element-wise equal to the original, both at the back (`Pop ∘ Push`) and at the
front (`PopFront ∘ PushFront`). -/
theorem push_pop_roundtrip [Inhabited T] (a : Slice T) (x : T) (hwf : a.WF) :
    ((Pop (Push a x)).map (fun p => (p.1, p.2.toList))) = some (x, a.toList)
    ∧ ((PopFront (PushFront a x)).map (fun p => (p.1, p.2.toList))) = some (x, a.toList) := by
  constructor
  · have hbwf : (Push a x).WF := goAppend_WF a [x] hwf
    have hlen : (Push a x).len = a.len + 1 := goAppend_len a [x]
    have htl : (Push a x).toList = a.toList ++ [x] := goAppend_toList a [x] hwf
    have hne : ¬ (Push a x).len = 0 := by omega
    rw [Pop, if_neg hne]
    have hval : (Push a x).store.getD ((Push a x).off + ((Push a x).len - 1)) default = x := by
      have h1 : a.len < (Push a x).len := by omega
      have := (Push a x).toList_getD hbwf (by omega : a.len < (Push a x).len)
      rw [hlen, Nat.add_sub_cancel, ← this, htl,
        List.getD_append_right _ _ _ _ (by rw [a.toList_length hwf]),
        a.toList_length hwf, Nat.sub_self]
      rfl
    have htail : (Slice.mk (Push a x).store (Push a x).off ((Push a x).len - 1)).toList
        = a.toList := by
      rw [toList_mk_shrink _ _ (by omega), htl, hlen, Nat.add_sub_cancel,
        List.take_left' (a.toList_length hwf)]
    simp only [Option.map_some', hval, htail]
  · have h0wf : (Slice.mk [x] 0 1).WF := by
      show 0 + 1 ≤ 1
      omega
    have hbwf : (PushFront a x).WF := goAppend_WF _ a.toList h0wf
    have hlen : (PushFront a x).len = 1 + a.toList.length := goAppend_len _ a.toList
    have htl : (PushFront a x).toList = x :: a.toList := by
      rw [PushFront, goAppend_toList _ _ h0wf]
      rfl
    have hne : ¬ (PushFront a x).len = 0 := by omega
    rw [PopFront, if_neg hne]
    have hval : (PushFront a x).store.getD (PushFront a x).off default = x := by
      have h0 : (0 : Nat) < (PushFront a x).len := by omega
      have := (PushFront a x).toList_getD hbwf h0
      rw [Nat.add_zero] at this
      rw [← this, htl]
      rfl
    have htail : (Slice.mk (PushFront a x).store ((PushFront a x).off + 1)
        ((PushFront a x).len - 1)).toList = a.toList := by
      rw [toList_mk_advance, htl]
      rfl
    simp only [Option.map_some', hval, htail]

/-- C10: on a non-empty slice, `Pop` and `PopFront` leave the backing array
completely unchanged (in particular they do not clear the vacated slot): after
`Pop` the slot just beyond the new length still holds the popped element, and
after `PopFront` the slot just before the new start still holds the popped
element. -/
theorem pop_no_clear_spec [Inhabited T] (a : Slice T) (h1 : 0 < a.len) :
    ((Pop a).map (fun p => p.2.store)) = some a.store
    ∧ ((Pop a).map (fun p => p.2.off)) = some a.off
    ∧ ((Pop a).map (fun p => p.2.len)) = some (a.len - 1)
    ∧ ((Pop a).map (fun p => p.2.store.getD (p.2.off + p.2.len) default))
        = (Pop a).map Prod.fst
    ∧ ((PopFront a).map (fun p => p.2.store)) = some a.store
    ∧ ((PopFront a).map (fun p => p.2.off)) = some (a.off + 1)
    ∧ ((PopFront a).map (fun p => p.2.len)) = some (a.len - 1)
    ∧ ((PopFront a).map (fun p => p.2.store.getD (p.2.off - 1) default))
        = (PopFront a).map Prod.fst := by
  have hne : ¬ a.len = 0 := by omega
  simp only [Pop, PopFront, if_neg hne, Option.map_some, Nat.add_sub_cancel]
  refine ⟨rfl, rfl, rfl, rfl, rfl, rfl, rfl, rfl⟩

/-! ### Lemmas about the filter loops -/

theorem filterLoop_length (keep : T → Bool) (off : Nat) :
    ∀ (xs store : List T) (n : Nat),
      (filterLoop keep off xs store n).1.length = store.length
  | [], _, _ => rfl
  | x :: xs, store, n => by
    simp only [filterLoop]
    split
    · rw [filterLoop_length keep off xs _ _, List.length_set]
    · exact filterLoop_length keep off xs store n

theorem filterLoop_spec (keep : T → Bool) (off : Nat) :
    ∀ (xs store : List T) (n : Nat), off + n + xs.length ≤ store.length →
      (filterLoop keep off xs store n).2 = n + (xs.filter keep).length
      ∧ (filterLoop keep off xs store n).1.take (off + n) = store.take (off + n)
      ∧ ((filterLoop keep off xs store n).1.drop (off + n)).take
          (xs.filter keep).length = xs.filter keep
  | [], store, n, _ => by
    refine ⟨rfl, rfl, ?_⟩
    simp [List.filter_nil]
  | x :: xs, store, n, h => by
    have hxs : off + n + (x :: xs).length = off + n + 1 + xs.length := by
      simp only [List.length_cons]; omega
    simp only [filterLoop]
    by_cases hk : keep x = true
    · rw [if_pos hk]
      have hlen : off + n < store.length := by omega
      have h' : off + (n + 1) + xs.length ≤ (store.set (off + n) x).length := by
        rw [List.length_set]; omega
      obtain ⟨c1, c2, c3⟩ := filterLoop_spec keep off xs (store.set (off + n) x) (n + 1) h'
      have hRlen : (filterLoop keep off xs (store.set (off + n) x) (n + 1)).1.length
          = store.length := by
        rw [filterLoop_length, List.length_set]
      refine ⟨?_, ?_, ?_⟩
      · rw [c1, List.filter_cons_of_pos hk, List.length_cons]
        omega
      · have t1 : (filterLoop keep off xs (store.set (off + n) x) (n + 1)).1.take (off + n)
            = ((filterLoop keep off xs (store.set (off + n) x) (n + 1)).1.take
              (off + (n + 1))).take (off + n) := by
          rw [List.take_take, Nat.min_eq_left (by omega)]
        rw [t1, c2]
        rw [List.take_take, Nat.min_eq_left (by omega)]
        exact take_set_self store (off + n) x
      · have hx : (filterLoop keep off xs (store.set (off + n) x) (n + 1)).1[off + n]?
            = some x := by
          rw [← List.getElem?_take_of_lt (by omega : off + n < off + (n + 1)), c2,
            List.getElem?_take_of_lt (by omega), List.getElem?_set_self hlen]
        have hb : off + n < (filterLoop keep off xs (store.set (off + n) x) (n + 1)).1.length := by
          rw [hRlen]; omega
        rw [List.filter_cons_of_pos hk, List.drop_eq_getElem_cons hb, List.length_cons,
          List.take_succ_cons]
        have hget : (filterLoop keep off xs (store.set (off + n) x) (n + 1)).1[off + n] = x := by
          have h2 := List.getElem?_eq_getElem hb
          rw [hx] at h2
          exact (Option.some.injEq .. ▸ h2.symm : _)
        rw [hget]
        have h3 : off + n + 1 = off + (n + 1) := by omega
        rw [h3, c3]
    · rw [if_neg hk]
      have h' : off + n + xs.length ≤ store.length := by omega
      obtain ⟨c1, c2, c3⟩ := filterLoop_spec keep off xs store n h'
      rw [List.filter_cons_of_neg (by simpa using hk)]
      exact ⟨c1, c2, c3⟩

theorem goAppend_one_inplace (store : List T) (off n : Nat) (x : T)
    (h : off + n < store.length) :
    goAppend (Slice.mk store off n) [x] = Slice.mk (store.set (off + n) x) off (n + 1) := by
  have hc : copyInto store (off + n) 1 [x] = store.set (off + n) x := by
    rw [copyInto, List.set_eq_take_append_cons_drop, if_pos h]
    simp
  rw [goAppend, if_pos]
  · show Slice.mk (copyInto store (off + n) [x].length [x]) off (n + [x].length)
        = Slice.mk (store.set (off + n) x) off (n + 1)
    rw [show [x].length = 1 from rfl, hc]
  · show n + 1 ≤ (Slice.mk store off n).cap
    show n + 1 ≤ store.length - off
    omega

theorem filterAppendLoop_eq (keep : T → Bool) :
    ∀ (xs store : List T) (off n : Nat), off + n + xs.length ≤ store.length →
      filterAppendLoop keep xs (Slice.mk store off n)
        = Slice.mk (filterLoop keep off xs store n).1 off
            (filterLoop keep off xs store n).2
  | [], _, _, _, _ => rfl
  | x :: xs, store, off, n, h => by
    simp only [filterAppendLoop, filterLoop]
    by_cases hk : keep x = true
    · rw [if_pos hk, if_pos hk, goAppend_one_inplace store off n x (by
        simp only [List.length_cons] at h; omega)]
      exact filterAppendLoop_eq keep xs (store.set (off + n) x) off (n + 1)
        (by rw [List.length_set]; simp only [List.length_cons] at h; omega)
    · rw [if_neg hk, if_neg hk]
      exact filterAppendLoop_eq keep xs store off n
        (by simp only [List.length_cons] at h; omega)

/-! ### Claim theorems: Filter family (C5) and trailing clears (C4) -/

/-- C5: for a well-formed slice, `Filter` retains, in original order, exactly
the elements for which the predicate returns true, and each lower-guarantee
variant (`FilterNoGC`, `FilterZeroAlloc`, `FilterZeroAllocNoGC`) produces a
sequence with ordering and elements identical to the baseline `Filter`. -/
theorem filter_variants_spec [Inhabited T] (a : Slice T) (keep : T → Bool)
    (hwf : a.WF) :
    (Filter a keep).toList = a.toList.filter keep
    ∧ (FilterNoGC a keep).toList = (Filter a keep).toList
    ∧ (FilterZeroAlloc a keep).toList = (Filter a keep).toList
    ∧ (FilterZeroAllocNoGC a keep).toList = (Filter a keep).toList := by
  have hoff : a.off + a.len ≤ a.store.length := hwf
  have h0 : a.off + 0 + a.toList.length ≤ a.store.length := by
    rw [a.toList_length hwf]; omega
  obtain ⟨c1, c2, c3⟩ := filterLoop_spec keep a.off a.toList a.store 0 h0
  have hflen : (filterLoop keep a.off a.toList a.store 0).1.length
      = a.store.length := filterLoop_length keep a.off a.toList a.store 0
  have hr2 : (filterLoop keep a.off a.toList a.store 0).2
      = (a.toList.filter keep).length := by rw [c1]; omega
  have hle : (a.toList.filter keep).length ≤ a.len := by
    rw [← a.toList_length hwf]
    exact List.length_filter_le _ _
  have hcore : ((filterLoop keep a.off a.toList a.store 0).1.drop a.off).take
      (a.toList.filter keep).length = a.toList.filter keep := by
    have h3 := c3
    rw [Nat.add_zero] at h3
    exact h3
  have hnogc : (FilterNoGC a keep).toList = a.toList.filter keep := by
    show ((filterLoop keep a.off a.toList a.store 0).1.drop a.off).take
        (filterLoop keep a.off a.toList a.store 0).2 = _
    rw [hr2]
    exact hcore
  have hfil : (Filter a keep).toList = a.toList.filter keep := by
    show ((zeroRange (filterLoop keep a.off a.toList a.store 0).1
        (a.off + (filterLoop keep a.off a.toList a.store 0).2)
        (a.len - (filterLoop keep a.off a.toList a.store 0).2)).drop a.off).take
        (filterLoop keep a.off a.toList a.store 0).2 = _
    rw [drop_take_eq_of_take_eq
      (zeroRange_take _ _ _ (by rw [hflen, hr2]; omega)) (Nat.le_refl _), hr2]
    exact hcore
  have he := filterAppendLoop_eq keep a.toList a.store a.off 0 h0
  have hzng : FilterZeroAllocNoGC a keep = FilterNoGC a keep := by
    show filterAppendLoop keep a.toList (Slice.mk a.store a.off 0) = _
    rw [he]
    rfl
  have hza : FilterZeroAlloc a keep = Filter a keep := by
    show Slice.mk (zeroRange
        (filterAppendLoop keep a.toList (Slice.mk a.store a.off 0)).store
        (a.off + (filterAppendLoop keep a.toList (Slice.mk a.store a.off 0)).len)
        (a.len - (filterAppendLoop keep a.toList (Slice.mk a.store a.off 0)).len))
        (filterAppendLoop keep a.toList (Slice.mk a.store a.off 0)).off
        (filterAppendLoop keep a.toList (Slice.mk a.store a.off 0)).len
        = Filter a keep
    rw [he]
    rfl
  exact ⟨hfil, by rw [hnogc, hfil], by rw [hza], by rw [hzng, hnogc, hfil]⟩

/-- C4: after each operation documented as clearing trailing storage — `Cut`,
`Delete`, and the baseline `Filter` — every backing-array slot beyond the new
length that was occupied before the call (slice positions from the new length
up to the old length) holds the element type's zero value. -/
theorem clear_trailing_spec [Inhabited T] (a : Slice T) (start stop i k : Nat)
    (keep : T → Bool) (hwf : a.WF) (h1 : start ≤ stop) (h2 : stop ≤ a.len)
    (hi : i < a.len) :
    ((Cut a start stop).len ≤ k → k < a.len →
      (Cut a start stop).store.getD (a.off + k) default = default)
    ∧ ((Delete a i).len ≤ k → k < a.len →
      (Delete a i).store.getD (a.off + k) default = default)
    ∧ ((Filter a keep).len ≤ k → k < a.len →
      (Filter a keep).store.getD (a.off + k) default = default) := by
  have hoff : a.off + a.len ≤ a.store.length := hwf
  refine ⟨?_, ?_, ?_⟩
  · intro hk1 hk2
    have hk1' : a.len - stop + start ≤ k := hk1
    have hsrc : (a.toList.drop stop).length = a.len - stop := by
      simp only [List.length_drop, a.toList_length hwf]
    have hst1 : (copyInto a.store (a.off + start) (a.len - start)
        (a.toList.drop stop)).length = a.store.length := by
      apply copyInto_length
      rw [hsrc]
      omega
    show (zeroRange (copyInto a.store (a.off + start) (a.len - start)
        (a.toList.drop stop)) (a.off + (a.len - stop + start))
        (a.len - (a.len - stop + start))).getD (a.off + k) default = default
    exact zeroRange_getD _ _ _ _ (by omega) (by omega) (by rw [hst1]; omega)
  · intro hk1 hk2
    have hk1' : a.len - 1 ≤ k := hk1
    have hk : k = a.len - 1 := by omega
    have hsrc : (a.toList.drop (i + 1)).length = a.len - (i + 1) := by
      simp only [List.length_drop, a.toList_length hwf]
    have hst1 : (copyInto a.store (a.off + i) (a.len - i)
        (a.toList.drop (i + 1))).length = a.store.length := by
      apply copyInto_length
      rw [hsrc]
      omega
    show ((copyInto a.store (a.off + i) (a.len - i) (a.toList.drop (i + 1))).set
        (a.off + (a.len - 1)) default).getD (a.off + k) default = default
    rw [hk]
    exact getD_set_self _ _ _ _ (by rw [hst1]; omega)
  · intro hk1 hk2
    have hk1' : (filterLoop keep a.off a.toList a.store 0).2 ≤ k := hk1
    have h0 : a.off + 0 + a.toList.length ≤ a.store.length := by
      rw [a.toList_length hwf]; omega
    obtain ⟨c1, _, _⟩ := filterLoop_spec keep a.off a.toList a.store 0 h0
    have hle : (a.toList.filter keep).length ≤ a.len := by
      rw [← a.toList_length hwf]
      exact List.length_filter_le _ _
    have hr2 : (filterLoop keep a.off a.toList a.store 0).2 ≤ a.len := by
      rw [c1]; omega
    have hflen : (filterLoop keep a.off a.toList a.store 0).1.length
        = a.store.length := filterLoop_length keep a.off a.toList a.store 0
    show (zeroRange (filterLoop keep a.off a.toList a.store 0).1
        (a.off + (filterLoop keep a.off a.toList a.store 0).2)
        (a.len - (filterLoop keep a.off a.toList a.store 0).2)).getD
        (a.off + k) default = default
    exact zeroRange_getD _ _ _ _ (by omega) (by omega) (by rw [hflen]; omega)

/-! ### Lemmas about `batchesLoop` and `slidingLoop` -/

theorem batchesLoop_acc (bs : Nat) :
    ∀ (fuel : Nat) (a : List T) (acc : List (List T)),
      batchesLoop bs fuel a acc = acc ++ batchesLoop bs fuel a []
  | 0, a, acc => by simp [batchesLoop]
  | fuel + 1, a, acc => by
    simp only [batchesLoop]
    split
    · rw [batchesLoop_acc bs fuel (a.drop bs) (acc ++ [a.take bs]),
        batchesLoop_acc bs fuel (a.drop bs) ([] ++ [a.take bs])]
      simp
    · simp

theorem batchesLoop_spec (bs : Nat) (hbs : 1 ≤ bs) :
    ∀ (fuel : Nat) (a : List T), a.length ≤ fuel →
      (batchesLoop bs fuel a []).flatten = a
      ∧ (∀ t, t + 1 < (batchesLoop bs fuel a []).length →
          ((batchesLoop bs fuel a []).getD t []).length = bs)
      ∧ (∃ last, (batchesLoop bs fuel a []).getLast? = some last
          ∧ last.length ≤ bs ∧ (a ≠ [] → 1 ≤ last.length))
      ∧ (a ≠ [] → (batchesLoop bs fuel a []).length = (a.length + bs - 1) / bs)
  | 0, a, h => by
    have ha : a = [] := by
      cases a with
      | nil => rfl
      | cons y ys => simp at h
    subst ha
    refine ⟨by simp [batchesLoop], ?_, ⟨[], by simp [batchesLoop], by simp, by simp⟩, ?_⟩
    · intro t ht
      simp [batchesLoop] at ht
    · intro hne
      exact absurd rfl hne
  | fuel + 1, a, h => by
    simp only [batchesLoop]
    by_cases hlt : bs < a.length
    · rw [if_pos hlt]
      rw [batchesLoop_acc bs fuel (a.drop bs) ([] ++ [a.take bs])]
      simp only [List.nil_append]
      have hfd : (a.drop bs).length ≤ fuel := by
        simp only [List.length_drop]; omega
      obtain ⟨i1, i2, ⟨last, i3, i3b, i3c⟩, i4⟩ := batchesLoop_spec bs hbs fuel (a.drop bs) hfd
      have hdne : a.drop bs ≠ [] := by
        intro hd
        have := congrArg List.length hd
        simp only [List.length_drop] at this
        simp at this
        omega
      refine ⟨?_, ?_, ?_, ?_⟩
      · rw [List.singleton_append, List.flatten_cons, i1, List.take_append_drop]
      · rw [List.singleton_append]
        intro t ht
        cases t with
        | zero =>
          simp only [List.getD_cons_zero, List.length_take]
          omega
        | succ m =>
          simp only [List.getD_cons_succ]
          apply i2
          simp only [List.length_cons] at ht
          omega
      · refine ⟨last, ?_, i3b, fun _ => i3c hdne⟩
        rw [List.getLast?_append, i3]
        rfl
      · intro _
        rw [List.singleton_append, List.length_cons, i4 hdne]
        simp only [List.length_drop]
        have he : a.length + bs - 1 = (a.length - bs + bs - 1) + bs := by omega
        rw [he, Nat.add_div_right _ (by omega)]
    · rw [if_neg hlt]
      refine ⟨by simp, ?_, ⟨a, by simp, by omega, ?_⟩, ?_⟩
      · intro t ht
        simp at ht
      · intro hne
        have := List.length_pos.mpr hne
        omega
      · intro hne
        have h1 : 1 ≤ a.length := List.length_pos.mpr hne
        show 1 = (a.length + bs - 1) / bs
        exact (Nat.div_eq_of_lt_le (by omega : 1 * bs ≤ a.length + bs - 1)
          (by omega : a.length + bs - 1 < (1 + 1) * bs)).symm

theorem slidingLoop_spec (a : List T) :
    ∀ (fuel i j : Nat) (r : List (List T)), a.length + 1 - j ≤ fuel →
      slidingLoop a fuel i j r
        = r ++ (List.range (a.length + 1 - j)).map
            (fun t => (a.drop (i + t)).take (j - i))
  | 0, i, j, r, h => by
    have h0 : a.length + 1 - j = 0 := by omega
    rw [h0]
    simp [slidingLoop]
  | fuel + 1, i, j, r, h => by
    simp only [slidingLoop]
    by_cases hj : j ≤ a.length
    · rw [if_pos hj, slidingLoop_spec a fuel (i + 1) (j + 1)
        (r ++ [(a.drop i).take (j - i)]) (by omega)]
      have htail : (List.range (a.length + 1 - (j + 1))).map
            (fun s => (a.drop (i + 1 + s)).take (j + 1 - (i + 1)))
          = (List.range (a.length + 1 - (j + 1))).map
            (fun s => (a.drop (i + (s + 1))).take (j - i)) := by
        apply List.map_congr_left
        intro s _
        have e1 : i + 1 + s = i + (s + 1) := by omega
        have e2 : j + 1 - (i + 1) = j - i := by omega
        rw [e1, e2]
      have hn : a.length + 1 - j = (a.length + 1 - (j + 1)) + 1 := by omega
      rw [htail, hn, List.range_succ_eq_map, List.map_cons, List.map_map,
        List.append_assoc, List.singleton_append]
      simp only [Function.comp_def, Nat.succ_eq_add_one, Nat.add_zero]
    · rw [if_neg hj]
      have h0 : a.length + 1 - j = 0 := by omega
      rw [h0]
      simp

/-! ### Claim theorems: Batches (C7) and SlidingWindow (C8) -/

/-- C7: for `batchSize ≥ 1`, the batches are consecutive and non-overlapping —
their concatenation equals the input — every batch except possibly the last
has length exactly `batchSize`, the last batch (of a non-empty input) has
length between 1 and `batchSize`, the number of batches is
`⌈length / batchSize⌉`, and an empty input yields an empty list of batches. -/
theorem batches_spec (a : List T) (batchSize t : Nat) (hbs : 1 ≤ batchSize) :
    (Batches a batchSize).flatten = a
    ∧ (t + 1 < (Batches a batchSize).length →
        ((Batches a batchSize).getD t []).length = batchSize)
    ∧ (a ≠ [] → 1 ≤ (((Batches a batchSize).getLast?).getD []).length
        ∧ (((Batches a batchSize).getLast?).getD []).length ≤ batchSize)
    ∧ (Batches a batchSize).length = (a.length + batchSize - 1) / batchSize
    ∧ (a = [] → Batches a batchSize = []) := by
  by_cases ha : a.length = 0
  · have ha' : a = [] := List.eq_nil_of_length_eq_zero ha
    subst ha'
    rw [Batches, if_pos (show ([] : List T).length = 0 from rfl)]
    refine ⟨rfl, ?_, ?_, ?_, fun _ => rfl⟩
    · intro ht
      simp at ht
    · intro hne
      exact absurd rfl hne
    · show 0 = (0 + batchSize - 1) / batchSize
      exact (Nat.div_eq_of_lt (by omega)).symm
  · rw [Batches, if_neg ha]
    obtain ⟨i1, i2, i3, i4⟩ :=
      batchesLoop_spec batchSize hbs a.length a (Nat.le_refl _)
    have hne : a ≠ [] := by
      intro he
      rw [he] at ha
      exact ha rfl
    refine ⟨i1, i2 t, ?_, i4 hne, ?_⟩
    · intro _
      obtain ⟨last, hl, hlb, hlo⟩ := i3
      rw [hl]
      exact ⟨hlo hne, hlb⟩
    · intro he
      exact absurd he hne

/-- C8: for `size ≥ 1`, `SlidingWindow` returns, in order, the windows
`a[t : t+size]` for offsets `t = 0 .. length - size` when `length > size`
(so their count is `length - size + 1`); when `0 < length ≤ size` the result
is exactly one window equal to the whole sequence; and an empty input yields
an empty result. -/
theorem slidingWindow_spec (a : List T) (size t : Nat) (hs : 1 ≤ size) :
    (a = [] → SlidingWindow a size = [])
    ∧ (a ≠ [] → a.length ≤ size → SlidingWindow a size = [a])
    ∧ (size < a.length → (SlidingWindow a size).length = a.length - size + 1)
    ∧ (size < a.length → t ≤ a.length - size →
        (SlidingWindow a size).getD t [] = (a.drop t).take size) := by
  refine ⟨?_, ?_, ?_, ?_⟩
  · intro h
    subst h
    rfl
  · intro h1 h2
    have hlen : ¬ a.length = 0 := by
      intro h0
      exact h1 (List.eq_nil_of_length_eq_zero h0)
    rw [SlidingWindow, if_neg hlen, if_pos h2]
  · intro hlt
    rw [SlidingWindow, if_neg (by omega), if_neg (by omega),
      slidingLoop_spec a (a.length + 1) 0 size [] (by omega)]
    simp only [List.nil_append, List.length_map, List.length_range]
    omega
  · intro hlt hle
    rw [SlidingWindow, if_neg (by omega), if_neg (by omega),
      slidingLoop_spec a (a.length + 1) 0 size [] (by omega)]
    simp only [List.nil_append]
    rw [List.getD_eq_getElem _ _ (by
      simp only [List.length_map, List.length_range]; omega)]
    simp only [List.getElem_map, List.getElem_range, Nat.zero_add, Nat.sub_zero]

/-! ### Concrete slices used by the evaluation theorems and witnesses -/

/-- The slice `[0,1,2,3]` with no spare capacity (`len = cap = 4`). -/
def s4 : Slice Nat := { store := [0, 1, 2, 3], off := 0, len := 4 }

/-- The slice `[0,1,2,3]` with one spare (zeroed) capacity slot
(`len = 4`, `cap = 5`), as produced by `make([]int, 4, 5)`. -/
def s4c : Slice Nat := { store := [0, 1, 2, 3, 0], off := 0, len := 4 }

/-- The slice `[1,2,3]` over a 5-slot backing array (`len = 3`, `cap = 5`). -/
def s3 : Slice Nat := { store := [1, 2, 3, 0, 0], off := 0, len := 3 }

/-- The slice `[1,2,3]` viewed at offset 1 of the backing array `[7,1,2,3]`. -/
def sOff : Slice Nat := { store := [7, 1, 2, 3], off := 1, len := 3 }

/-! ### Claim theorems: InsertMany (C1) and SortAndDeduplicate (C2) -/

/-- C1: evaluation of `InsertMany` at a failing input.  The two slices hold
the same elements `[0,1,2,3]`; the first has one slot of spare capacity
(`cap = 5`), so inserting `[9]` at index 0 takes the in-place path and
produces `[9,0,1,3,0]` — the element `2` is lost and a stale capacity slot
leaks in — while the second (`cap = 4`) takes the reallocation path and
produces the correct `[9,0,1,2,3] = s[:0] ++ [9] ++ s[0:]`.  The in-place
copy `copy((*a)[i+k:], (*a)[i:i+k+1])` moves only `k+1` tail elements, so the
in-place path corrupts the result whenever `len(s) - i > len(es) + 1`. -/
theorem insertMany_inplace_bug_eval :
    s4c.toList = s4.toList
    ∧ (InsertMany s4c 0 [9]).map Slice.toList = some [9, 0, 1, 3, 0]
    ∧ (InsertMany s4 0 [9]).map Slice.toList = some [9, 0, 1, 2, 3]
    ∧ (InsertMany s4 0 [9]).map Slice.toList
        = some (s4.toList.take 0 ++ [9] ++ s4.toList.drop 0)
    ∧ (InsertMany s4c 0 [9]).map Slice.toList
        ≠ some (s4c.toList.take 0 ++ [9] ++ s4c.toList.drop 0)
    ∧ (InsertMany s4c 0 [9]).map Slice.toList
        ≠ (InsertMany s4 0 [9]).map Slice.toList := by
  decide

/-- C2: evaluation of `SortAndDeduplicate` at the failing empty input.  The
function ends with `*a = (*a)[:j+1]` where `j = 0` on an empty input: with a
nil slice (`cap = 0`) the reslice panics, and with spare capacity the result
has length 1 instead of staying empty.  On a non-empty input the function
behaves as documented (third conjunct, reproducing the repository's test). -/
theorem sortAndDeduplicate_empty_bug_eval :
    SortAndDeduplicate ({ store := [], off := 0, len := 0 } : Slice Nat)
      (fun x y => decide (x < y)) = none
    ∧ (SortAndDeduplicate ({ store := [7], off := 0, len := 0 } : Slice Nat)
        (fun x y => decide (x < y))).map Slice.len = some 1
    ∧ (SortAndDeduplicate
        ({ store := [9, 3, 3, 4, 6, 3, 6, 9, 3, 5], off := 0, len := 10 } : Slice Nat)
        (fun x y => decide (x < y))).map Slice.toList = some [3, 4, 5, 6, 9] := by
  decide

/-! ### Counterexample and witnesses -/

/-- C3 counterexample: `Expand` on the slice `[5]` at `i = 0` with `n = 1`
yields `[0, 5]` — the zero goes to position 0, immediately BEFORE the element
at index 0 — whereas the claim's placement "immediately after index i
(equivalently, before index i+1)" predicts `[5, 0]`. -/
theorem expand_after_index_counterexample :
    (Expand ({ store := [5], off := 0, len := 1 } : Slice Nat) 0 1).toList = [0, 5]
    ∧ ¬ ((Expand ({ store := [5], off := 0, len := 1 } : Slice Nat) 0 1).toList
        = ({ store := [5], off := 0, len := 1 } : Slice Nat).toList.take (0 + 1)
          ++ List.replicate 1 (default : Nat)
          ++ ({ store := [5], off := 0, len := 1 } : Slice Nat).toList.drop (0 + 1)) := by
  decide

/-- Witness for the C3 theorem at the slice `[1,2,3]` (cap 5), `i = 1`, `n = 2`. -/
theorem expand_spec_witness :
    (s3.WF ∧ 1 ≤ s3.len)
    ∧ ((Expand s3 1 2).toList
        = s3.toList.take 1 ++ List.replicate 2 (default : Nat) ++ s3.toList.drop 1
      ∧ (Expand s3 1 2).len = s3.len + 2
      ∧ (Expand s3 1 0).toList = s3.toList) :=
  ⟨⟨by decide, by decide⟩, expand_spec s3 1 2 (by decide) (by decide)⟩

/-- Witness for the C4 theorem at the slice `[0,1,2,3]`, `Cut` range `[1,3)`,
`Delete` index 2, slot index `k = 2`, even-keeping predicate. -/
theorem clear_trailing_spec_witness :
    (s4.WF ∧ 1 ≤ 3 ∧ 3 ≤ s4.len ∧ 2 < s4.len)
    ∧ (((Cut s4 1 3).len ≤ 2 → 2 < s4.len →
        (Cut s4 1 3).store.getD (s4.off + 2) default = default)
      ∧ ((Delete s4 2).len ≤ 2 → 2 < s4.len →
        (Delete s4 2).store.getD (s4.off + 2) default = default)
      ∧ ((Filter s4 (fun x => decide (x % 2 = 0))).len ≤ 2 → 2 < s4.len →
        (Filter s4 (fun x => decide (x % 2 = 0))).store.getD (s4.off + 2) default
          = default)) :=
  ⟨⟨by decide, by decide, by decide, by decide⟩,
    clear_trailing_spec s4 1 3 2 2 (fun x => decide (x % 2 = 0))
      (by decide) (by decide) (by decide) (by decide)⟩

/-- Witness for the C5 theorem at the slice `[0,1,2,3]` with the even-keeping
predicate. -/
theorem filter_variants_spec_witness :
    s4.WF
    ∧ ((Filter s4 (fun x => decide (x % 2 = 0))).toList
        = s4.toList.filter (fun x => decide (x % 2 = 0))
      ∧ (FilterNoGC s4 (fun x => decide (x % 2 = 0))).toList
        = (Filter s4 (fun x => decide (x % 2 = 0))).toList
      ∧ (FilterZeroAlloc s4 (fun x => decide (x % 2 = 0))).toList
        = (Filter s4 (fun x => decide (x % 2 = 0))).toList
      ∧ (FilterZeroAllocNoGC s4 (fun x => decide (x % 2 = 0))).toList
        = (Filter s4 (fun x => decide (x % 2 = 0))).toList) :=
  ⟨by decide, filter_variants_spec s4 (fun x => decide (x % 2 = 0)) (by decide)⟩

/-- Witness for the C6 theorem at the slice `[0,1,2,3]`, `Cut` range `[1,3)`
and `Delete` index 2. -/
theorem cut_delete_spec_witness :
    (s4.WF ∧ 1 ≤ 3 ∧ 3 ≤ s4.len ∧ 2 < s4.len)
    ∧ (((Cut s4 1 3).toList = s4.toList.take 1 ++ s4.toList.drop 3
        ∧ (Cut s4 1 3).len = s4.len - (3 - 1))
      ∧ ((Delete s4 2).toList = s4.toList.take 2 ++ s4.toList.drop (2 + 1)
        ∧ (Delete s4 2).len = s4.len - 1)) :=
  ⟨⟨by decide, by decide, by decide, by decide⟩,
    cut_delete_spec s4 1 3 2 (by decide) (by decide) (by decide) (by decide)⟩

/-- Witness for the C7 theorem at the list `[0..7]` with batch size 3 and
batch index `t = 1`. -/
theorem batches_spec_witness :
    1 ≤ 3
    ∧ ((Batches ([0, 1, 2, 3, 4, 5, 6, 7] : List Nat) 3).flatten
        = [0, 1, 2, 3, 4, 5, 6, 7]
      ∧ (1 + 1 < (Batches ([0, 1, 2, 3, 4, 5, 6, 7] : List Nat) 3).length →
          ((Batches ([0, 1, 2, 3, 4, 5, 6, 7] : List Nat) 3).getD 1 []).length = 3)
      ∧ (([0, 1, 2, 3, 4, 5, 6, 7] : List Nat) ≠ [] →
          1 ≤ (((Batches ([0, 1, 2, 3, 4, 5, 6, 7] : List Nat) 3).getLast?).getD []).length
          ∧ (((Batches ([0, 1, 2, 3, 4, 5, 6, 7] : List Nat) 3).getLast?).getD []).length ≤ 3)
      ∧ (Batches ([0, 1, 2, 3, 4, 5, 6, 7] : List Nat) 3).length
          = (([0, 1, 2, 3, 4, 5, 6, 7] : List Nat).length + 3 - 1) / 3
      ∧ (([0, 1, 2, 3, 4, 5, 6, 7] : List Nat) = []
          → Batches ([0, 1, 2, 3, 4, 5, 6, 7] : List Nat) 3 = [])) :=
  ⟨by decide, batches_spec [0, 1, 2, 3, 4, 5, 6, 7] 3 1 (by decide)⟩

/-- Witness for the C8 theorem at the list `[0,1,2,3,4]` with window size 3
and window index `t = 1`. -/
theorem slidingWindow_spec_witness :
    1 ≤ 3
    ∧ ((([0, 1, 2, 3, 4] : List Nat) = []
          → SlidingWindow ([0, 1, 2, 3, 4] : List Nat) 3 = [])
      ∧ (([0, 1, 2, 3, 4] : List Nat) ≠ [] → ([0, 1, 2, 3, 4] : List Nat).length ≤ 3
          → SlidingWindow ([0, 1, 2, 3, 4] : List Nat) 3 = [[0, 1, 2, 3, 4]])
      ∧ (3 < ([0, 1, 2, 3, 4] : List Nat).length →
          (SlidingWindow ([0, 1, 2, 3, 4] : List Nat) 3).length
            = ([0, 1, 2, 3, 4] : List Nat).length - 3 + 1)
      ∧ (3 < ([0, 1, 2, 3, 4] : List Nat).length
          → 1 ≤ ([0, 1, 2, 3, 4] : List Nat).length - 3 →
          (SlidingWindow ([0, 1, 2, 3, 4] : List Nat) 3).getD 1 []
            = (([0, 1, 2, 3, 4] : List Nat).drop 1).take 3)) :=
  ⟨by decide, slidingWindow_spec [0, 1, 2, 3, 4] 3 1 (by decide)⟩

/-- Witness for the C9 theorem at the slice `[0,1,2,3]` (no spare capacity)
and the element 9. -/
theorem push_pop_roundtrip_witness :
    s4.WF
    ∧ (((Pop (Push s4 9)).map (fun p => (p.1, p.2.toList))) = some (9, s4.toList)
      ∧ ((PopFront (PushFront s4 9)).map (fun p => (p.1, p.2.toList)))
          = some (9, s4.toList)) :=
  ⟨by decide, push_pop_roundtrip s4 9 (by decide)⟩

/-- Witness for the C10 theorem at a slice viewed at offset 1 of its backing
array. -/
theorem pop_no_clear_spec_witness :
    0 < sOff.len
    ∧ (((Pop sOff).map (fun p => p.2.store)) = some sOff.store
      ∧ ((Pop sOff).map (fun p => p.2.off)) = some sOff.off
      ∧ ((Pop sOff).map (fun p => p.2.len)) = some (sOff.len - 1)
      ∧ ((Pop sOff).map (fun p => p.2.store.getD (p.2.off + p.2.len) default))
          = (Pop sOff).map Prod.fst
      ∧ ((PopFront sOff).map (fun p => p.2.store)) = some sOff.store
      ∧ ((PopFront sOff).map (fun p => p.2.off)) = some (sOff.off + 1)
      ∧ ((PopFront sOff).map (fun p => p.2.len)) = some (sOff.len - 1)
      ∧ ((PopFront sOff).map (fun p => p.2.store.getD (p.2.off - 1) default))
          = (PopFront sOff).map Prod.fst) :=
  ⟨by decide, pop_no_clear_spec sOff (by decide)⟩

end Slicetricks
